import Mathlib

/-!
Verification of the markup-normalization pipeline of `confluence2md`
(package `converter`, file `markdown.go`, plus the MIME sniffer).

Strings are modelled as `List Char`.  All byte-level Go string scans in the
source operate on ASCII-only patterns, for which byte positions and rune
positions coincide, so the `List Char` model is faithful.

The generic scanning engine below (`rewriteScan`) models Go's
left-to-right, non-overlapping, leftmost-match replace/count loops
(`strings.ReplaceAll`, `strings.Count`, `regexp.ReplaceAllStringFunc` for
the concrete patterns used by the source).  It is written with an explicit
skip counter so that every definition is structurally recursive and hence
computable by the kernel (`decide`).
-/

namespace C2MD

/-- One rewrite step: given the current suffix of the text, an applicable
rule returns the replacement text together with the length of the matched
region (which the scan then skips).  Rules are non-recursive functions. -/
def Rule : Type := List Char → Option (List Char × Nat)

/-- Left-to-right scan applying `rule` at each position, skipping over the
matched region after each replacement (Go's non-overlapping leftmost-match
replacement semantics).  The `k` argument is the number of characters of
the current match still to be skipped. -/
def rewriteScan (rule : Rule) : List Char → Nat → List Char
  | [], _ => []
  | _ :: rest, k + 1 => rewriteScan rule rest k
  | c :: rest, 0 =>
    match rule (c :: rest) with
    | some (out, L) => out ++ rewriteScan rule rest (L - 1)
    | none => c :: rewriteScan rule rest 0

/-- Counting scan: counts non-overlapping matches left to right, as
`strings.Count` does for a non-empty substring argument. -/
def countScan (pat : List Char) : List Char → Nat → Nat
  | [], _ => 0
  | _ :: rest, k + 1 => countScan pat rest k
  | c :: rest, 0 =>
    if pat.isPrefixOf (c :: rest) then 1 + countScan pat rest (pat.length - 1)
    else countScan pat rest 0

/-- Model of Go `strings.Count(s, pat)` for a non-empty `pat` (every call
site in the source passes a fixed non-empty literal): the number of
non-overlapping instances of `pat` in `s`, scanning left to right. -/
def goCount (pat s : List Char) : Nat := countScan pat s 0

/-- Model of Go `strings.Contains(s, pat)`. -/
def containsSub (pat : List Char) : List Char → Bool
  | [] => pat.isEmpty
  | c :: rest => pat.isPrefixOf (c :: rest) || containsSub pat rest

/-- Model of Go `strings.LastIndex(s, pat)`: the index of the last
occurrence of `pat` in `s`, or `none` (Go: `-1`) if there is none. -/
def lastIndex? (pat : List Char) : List Char → Option Nat
  | [] => if pat.isEmpty then some 0 else none
  | c :: rest =>
    match lastIndex? pat rest with
    | some i => some (i + 1)
    | none => if pat.isPrefixOf (c :: rest) then some 0 else none

/-- Model of Go `strings.Replace(s, pat, "", 1)` for non-empty `pat`:
remove the first (leftmost) occurrence of `pat`, if any. -/
def removeFirst (pat : List Char) : List Char → List Char
  | [] => []
  | c :: rest =>
    if pat.isPrefixOf (c :: rest) then rest.drop (pat.length - 1)
    else c :: removeFirst pat rest

/-- Rule for `strings.ReplaceAll s pat rep` (non-empty `pat`). -/
def replaceRule (pat rep : List Char) : Rule := fun s =>
  if pat.isPrefixOf s then some (rep, pat.length) else none

/-- Model of Go `strings.ReplaceAll(s, pat, rep)` for non-empty `pat`. -/
def replaceAll (pat rep s : List Char) : List Char :=
  rewriteScan (replaceRule pat rep) s 0

/-- Number of positions of `s` at which `pat` matches.  For the patterns
used in this file no two matches can overlap, so this agrees with
`goCount` (proved below); it is the convenient notion for the
occurrence-counting arguments. -/
def posCount (pat : List Char) : List Char → Nat
  | [] => 0
  | c :: rest => (if pat.isPrefixOf (c :: rest) then 1 else 0) + posCount pat rest

/-! ### Basic properties of the scanning engine -/

theorem rewriteScan_skip (rule : Rule) :
    ∀ (s : List Char) (k : Nat), rewriteScan rule s k = rewriteScan rule (s.drop k) 0
  | [], k => by cases k <;> rfl
  | _ :: _, 0 => rfl
  | c :: rest, k + 1 => by
    show rewriteScan rule rest k = _
    rw [rewriteScan_skip rule rest k]
    rfl

theorem rewriteScan_pos {rule : Rule} {c : Char} {rest out : List Char} {L : Nat}
    (h : rule (c :: rest) = some (out, L)) (hL : 1 ≤ L) :
    rewriteScan rule (c :: rest) 0 = out ++ rewriteScan rule ((c :: rest).drop L) 0 := by
  show (match rule (c :: rest) with
        | some (out, L) => out ++ rewriteScan rule rest (L - 1)
        | none => c :: rewriteScan rule rest 0) = _
  rw [h]
  obtain ⟨L, rfl⟩ := Nat.exists_eq_add_of_le hL
  show out ++ rewriteScan rule rest (1 + L - 1) = _
  rw [rewriteScan_skip rule rest (1 + L - 1)]
  simp [Nat.add_comm 1 L]

theorem rewriteScan_neg {rule : Rule} {c : Char} {rest : List Char}
    (h : rule (c :: rest) = none) :
    rewriteScan rule (c :: rest) 0 = c :: rewriteScan rule rest 0 := by
  show (match rule (c :: rest) with
        | some (out, L) => out ++ rewriteScan rule rest (L - 1)
        | none => c :: rewriteScan rule rest 0) = _
  rw [h]

theorem rewriteScan_noop {rule : Rule} :
    ∀ {s : List Char}, (∀ u, u <:+ s → rule u = none) → rewriteScan rule s 0 = s
  | [], _ => rfl
  | c :: rest, h => by
    rw [rewriteScan_neg (h _ List.suffix_rfl),
      rewriteScan_noop (fun u hu => h u (hu.trans (List.suffix_cons c rest)))]

theorem countScan_skip (pat : List Char) :
    ∀ (s : List Char) (k : Nat), countScan pat s k = countScan pat (s.drop k) 0
  | [], k => by cases k <;> rfl
  | _ :: _, 0 => rfl
  | c :: rest, k + 1 => by
    show countScan pat rest k = _
    rw [countScan_skip pat rest k]
    rfl

theorem goCount_nil (pat : List Char) : goCount pat [] = 0 := rfl

theorem goCount_pos {pat : List Char} {c : Char} {rest : List Char}
    (hne : pat ≠ []) (h : pat.isPrefixOf (c :: rest)) :
    goCount pat (c :: rest) = 1 + goCount pat ((c :: rest).drop pat.length) := by
  show (if pat.isPrefixOf (c :: rest) then 1 + countScan pat rest (pat.length - 1)
        else countScan pat rest 0) = _
  rw [if_pos h, countScan_skip]
  obtain ⟨p, t, rfl⟩ : ∃ p t, pat = p :: t := by
    cases pat with
    | nil => exact absurd rfl hne
    | cons p t => exact ⟨p, t, rfl⟩
  rfl

theorem goCount_neg {pat : List Char} {c : Char} {rest : List Char}
    (h : ¬ pat.isPrefixOf (c :: rest)) :
    goCount pat (c :: rest) = goCount pat rest := by
  show (if pat.isPrefixOf (c :: rest) then 1 + countScan pat rest (pat.length - 1)
        else countScan pat rest 0) = _
  rw [if_neg h]
  rfl

theorem replaceAll_nil (pat rep : List Char) : replaceAll pat rep [] = [] := rfl

theorem replaceAll_pos {pat rep : List Char} {c : Char} {rest : List Char}
    (hne : pat ≠ []) (h : pat.isPrefixOf (c :: rest)) :
    replaceAll pat rep (c :: rest) = rep ++ replaceAll pat rep ((c :: rest).drop pat.length) := by
  have h1 : 1 ≤ pat.length := by
    cases pat with
    | nil => exact absurd rfl hne
    | cons p t => exact Nat.succ_le_succ (Nat.zero_le _)
  exact rewriteScan_pos (by simp [replaceRule, h]) h1

theorem replaceAll_neg {pat rep : List Char} {c : Char} {rest : List Char}
    (h : ¬ pat.isPrefixOf (c :: rest)) :
    replaceAll pat rep (c :: rest) = c :: replaceAll pat rep rest :=
  rewriteScan_neg (by simp [replaceRule, h])

/-! ### Prefix helpers -/

theorem prefix_append_iff_of_length_le {p u v : List Char} (h : p.length ≤ u.length) :
    p <+: u ++ v ↔ p <+: u := by
  rw [List.prefix_iff_eq_take, List.prefix_iff_eq_take,
    List.take_append_of_le_length h]

theorem prefix_break {p u v : List Char} (hp : p <+: u ++ v) :
    p.length ≤ u.length ∨ (u <+: p ∧ p.drop u.length <+: v) := by
  rcases le_or_lt p.length u.length with h | h
  · exact Or.inl h
  · right
    have hp' := List.prefix_iff_eq_take.mp hp
    rw [List.take_append_eq_append_take, List.take_of_length_le (Nat.le_of_lt h)] at hp'
    constructor
    · exact ⟨v.take (p.length - u.length), hp'.symm⟩
    · rw [hp', List.drop_left]
      exact List.take_prefix _ _

/-! ### `posCount` lemmas and the bridge to `goCount` -/

theorem posCount_nil (pat : List Char) : posCount pat [] = 0 := rfl

theorem posCount_cons (pat : List Char) (c : Char) (rest : List Char) :
    posCount pat (c :: rest) =
      (if pat.isPrefixOf (c :: rest) then 1 else 0) + posCount pat rest := rfl

/-- Matches in `x` and matches in `y` survive in `x ++ y`. -/
theorem posCount_append_le (pat : List Char) :
    ∀ x y : List Char, posCount pat x + posCount pat y ≤ posCount pat (x ++ y)
  | [], y => by simp [posCount_nil]
  | c :: x, y => by
    rw [List.cons_append, posCount_cons, posCount_cons]
    have ih := posCount_append_le pat x y
    by_cases h : pat.isPrefixOf (c :: x)
    · have h2 : pat.isPrefixOf (c :: (x ++ y)) := by
        rw [List.isPrefixOf_iff_prefix] at h ⊢
        rw [← List.cons_append]
        exact h.trans (List.prefix_append _ _)
      rw [if_pos h, if_pos h2]
      omega
    · rw [if_neg h]
      by_cases h2 : pat.isPrefixOf (c :: (x ++ y))
      · rw [if_pos h2]
        omega
      · rw [if_neg h2]
        omega

/-- A pattern starting with `hc` has no match inside a block of characters
all different from `hc`. -/
theorem posCount_append_of_head_notMem {hc : Char} {t : List Char} :
    ∀ {u : List Char}, (∀ x ∈ u, x ≠ hc) →
      ∀ s : List Char, posCount (hc :: t) (u ++ s) = posCount (hc :: t) s
  | [], _, s => rfl
  | x :: u, hu, s => by
    rw [List.cons_append, posCount_cons]
    have hx : ¬ (hc :: t).isPrefixOf (x :: (u ++ s)) := by
      simp only [List.isPrefixOf, Bool.and_eq_true, beq_iff_eq]
      intro hfalse
      exact hu x (List.mem_cons_self x u) hfalse.1.symm
    rw [if_neg hx, posCount_append_of_head_notMem (fun y hy => hu y (List.mem_cons_of_mem x hy)) s]
    exact Nat.zero_add _

/-- For a pattern whose head character occurs nowhere else in the pattern,
no two matches can overlap, so the non-overlapping left-to-right count
(`goCount`, i.e. Go's `strings.Count`) equals the match-position count. -/
theorem goCount_eq_posCount {hc : Char} {t : List Char} (hh : hc ∉ t) (s : List Char) :
    goCount (hc :: t) s = posCount (hc :: t) s := by
  have main : ∀ n (s : List Char), s.length ≤ n →
      goCount (hc :: t) s = posCount (hc :: t) s := by
    intro n
    induction n with
    | zero =>
      intro s hs
      rw [List.length_eq_zero.mp (Nat.le_zero.mp hs)]
      rfl
    | succ n ih =>
      intro s hs
      match s with
      | [] => rfl
      | c :: rest =>
        by_cases hp : (hc :: t).isPrefixOf (c :: rest)
        · obtain ⟨r, hr⟩ := List.isPrefixOf_iff_prefix.mp hp
          have hrlen : r.length ≤ n := by
            have := congrArg List.length hr
            simp at this hs
            omega
          have hrest : rest = t ++ r := by
            have h2 := hr
            simp only [List.cons_append, List.cons.injEq] at h2
            exact h2.2.symm
          have hc2 : c = hc := by
            have h2 := hr
            simp only [List.cons_append, List.cons.injEq] at h2
            exact h2.1.symm
          subst hc2
          subst hrest
          rw [goCount_pos (by simp) hp]
          have hdrop : (c :: (t ++ r)).drop (c :: t).length = r := by
            have : c :: (t ++ r) = (c :: t) ++ r := rfl
            rw [this, List.drop_left]
          rw [hdrop, posCount_cons, if_pos hp,
            posCount_append_of_head_notMem (fun x hx hxeq => hh (by rw [← hxeq]; exact hx)) r,
            ih r hrlen]
        · rw [goCount_neg hp, posCount_cons, if_neg hp, ih rest (by simp at hs; omega)]
          omega
  exact main s.length s le_rfl

/-! ### `lastIndex?` lemmas -/

theorem lastIndex_some_prefixOf {pat : List Char} :
    ∀ {s : List Char} {i : Nat}, lastIndex? pat s = some i → pat.isPrefixOf (s.drop i)
  | [], i, h => by
    unfold lastIndex? at h
    by_cases he : pat.isEmpty
    · rw [if_pos he] at h
      cases h
      rw [List.isEmpty_iff.mp he]
      rfl
    · rw [if_neg he] at h
      cases h
  | c :: rest, i, h => by
    unfold lastIndex? at h
    rcases hrec : lastIndex? pat rest with _ | j
    · rw [hrec] at h
      by_cases hp : pat.isPrefixOf (c :: rest)
      · simp only [if_pos hp] at h
        cases h
        exact hp
      · simp only [if_neg hp] at h
        cases h
    · rw [hrec] at h
      simp only at h
      cases h
      have h2 := lastIndex_some_prefixOf hrec
      exact h2

theorem lastIndex_none_goCount {pat : List Char} :
    ∀ {s : List Char}, lastIndex? pat s = none → goCount pat s = 0
  | [], _ => rfl
  | c :: rest, h => by
    unfold lastIndex? at h
    rcases hrec : lastIndex? pat rest with _ | j
    · rw [hrec] at h
      by_cases hp : pat.isPrefixOf (c :: rest)
      · simp only [if_pos hp] at h
        cases h
      · rw [goCount_neg hp, lastIndex_none_goCount hrec]
    · rw [hrec] at h
      simp at h

theorem lastIndex_bound {pat s : List Char} {i : Nat} (hne : pat ≠ [])
    (h : lastIndex? pat s = some i) : i + pat.length ≤ s.length := by
  have hp := lastIndex_some_prefixOf h
  rw [List.isPrefixOf_iff_prefix] at hp
  have hlen := hp.length_le
  rw [List.length_drop] at hlen
  by_cases hi : i ≤ s.length
  · omega
  · exfalso
    have hdrop : s.drop i = [] := List.drop_eq_nil_of_le (by omega)
    rw [hdrop, List.prefix_nil] at hp
    exact hne hp

/-! ### The disclosure marker pair of the post-processing pipeline -/

/-- The open marker `"<details>"`. -/
def openTag : List Char := "<details>".data

/-- The close marker `"</details>"`. -/
def closeTag : List Char := "</details>".data

theorem goCount_openTag_eq (s : List Char) : goCount openTag s = posCount openTag s := by
  have h : openTag = '<' :: "details>".data := by decide
  rw [h]
  exact goCount_eq_posCount (by decide) s

theorem goCount_closeTag_eq (s : List Char) : goCount closeTag s = posCount closeTag s := by
  have h : closeTag = '<' :: "/details>".data := by decide
  rw [h]
  exact goCount_eq_posCount (by decide) s

/-- An open-marker occurrence can never overlap a close-marker occurrence:
a match of `"<details>"` in `a ++ "</details>" ++ b` lies entirely inside
`a` or entirely inside `b`.  This is the prefix-level core of that fact. -/
theorem open_prefix_middle (a b : List Char) :
    openTag <+: a ++ (closeTag ++ b) ↔ openTag <+: a := by
  rcases le_or_lt openTag.length a.length with h | h
  · exact prefix_append_iff_of_length_le h
  · constructor
    · intro hp
      exfalso
      rcases prefix_break hp with h2 | ⟨_, hdrop⟩
      · omega
      · have hol : openTag.length = 9 := by decide
        have hcl : closeTag.length = 10 := by decide
        have hlen : (openTag.drop a.length).length ≤ closeTag.length := by
          rw [List.length_drop]
          omega
        have hb : (openTag.drop a.length).isPrefixOf closeTag :=
          List.isPrefixOf_iff_prefix.mpr ((prefix_append_iff_of_length_le hlen).mp hdrop)
        have hm9 : a.length < 9 := by omega
        generalize hg : a.length = m at hb hm9
        interval_cases m <;> exact absurd hb (by decide)
    · intro hp
      exact absurd hp.length_le (by omega)

/-- Open-marker matches split additively around a close-marker block. -/
theorem posCount_open_split (b : List Char) :
    ∀ a : List Char, posCount openTag (a ++ (closeTag ++ b)) =
      posCount openTag a + posCount openTag (closeTag ++ b)
  | [] => by simp [posCount_nil]
  | c :: a => by
    rw [List.cons_append, posCount_cons, posCount_cons, posCount_open_split b a]
    by_cases h : openTag.isPrefixOf (c :: a)
    · have h2 : openTag.isPrefixOf (c :: (a ++ (closeTag ++ b))) := by
        rw [List.isPrefixOf_iff_prefix] at h ⊢
        rw [show c :: (a ++ (closeTag ++ b)) = (c :: a) ++ (closeTag ++ b) from rfl]
        exact (open_prefix_middle (c :: a) b).mpr h
      rw [if_pos h, if_pos h2]
      omega
    · have h2 : ¬ openTag.isPrefixOf (c :: (a ++ (closeTag ++ b))) := by
        rw [List.isPrefixOf_iff_prefix] at h ⊢
        rw [show c :: (a ++ (closeTag ++ b)) = (c :: a) ++ (closeTag ++ b) from rfl]
        exact fun hx => h ((open_prefix_middle (c :: a) b).mp hx)
      rw [if_neg h, if_neg h2]
      omega

/-- No open-marker match starts inside the close-marker block itself. -/
theorem posCount_open_in_close (b : List Char) :
    posCount openTag (closeTag ++ b) = posCount openTag b := by
  show posCount openTag
    ('<' :: '/' :: 'd' :: 'e' :: 't' :: 'a' :: 'i' :: 'l' :: 's' :: '>' :: b) = posCount openTag b
  rw [posCount_cons, posCount_cons, posCount_cons, posCount_cons, posCount_cons,
    posCount_cons, posCount_cons, posCount_cons, posCount_cons, posCount_cons]
  have h0 : ¬ openTag.isPrefixOf
      ('<' :: '/' :: 'd' :: 'e' :: 't' :: 'a' :: 'i' :: 'l' :: 's' :: '>' :: b) := by
    show ¬ (('<' :: 'd' :: "etails>".data).isPrefixOf _)
    simp [List.isPrefixOf]
  have hhead : ∀ (c : Char) (t : List Char), c ≠ '<' → ¬ openTag.isPrefixOf (c :: t) := by
    intro c t hc
    show ¬ (('<' :: "details>".data).isPrefixOf (c :: t))
    simp only [List.isPrefixOf, Bool.and_eq_true, beq_iff_eq]
    intro hfalse
    exact hc hfalse.1.symm
  rw [if_neg h0, if_neg (hhead _ _ (by decide)), if_neg (hhead _ _ (by decide)),
    if_neg (hhead _ _ (by decide)), if_neg (hhead _ _ (by decide)),
    if_neg (hhead _ _ (by decide)), if_neg (hhead _ _ (by decide)),
    if_neg (hhead _ _ (by decide)), if_neg (hhead _ _ (by decide)),
    if_neg (hhead _ _ (by decide))]
  omega

/-- Deleting one close-marker occurrence never loses an open-marker
occurrence (new ones may appear at the seam, so this is an inequality). -/
theorem posCount_open_removal (a b : List Char) :
    posCount openTag (a ++ (closeTag ++ b)) ≤ posCount openTag (a ++ b) := by
  rw [posCount_open_split b a, posCount_open_in_close b]
  exact posCount_append_le openTag a b

/-! ### `balanceDetailsTags` (markdown.go:530-548) -/

/-- Model of `balanceDetailsTags`: repeatedly recount `"<details>"` and
`"</details>"` occurrences; while the closes exceed the opens, delete the
last (rightmost) occurrence of `"</details>"`, recounting from scratch
after each deletion.  Each deletion removes ten characters, so the loop
terminates; this is the `termination_by` measure. -/
def balanceDetailsTags (md : List Char) : List Char :=
  if goCount closeTag md ≤ goCount openTag md then md
  else
    match h : lastIndex? closeTag md with
    | none => md
    | some i => balanceDetailsTags (md.take i ++ md.drop (i + closeTag.length))
termination_by md.length
decreasing_by
  have hb := lastIndex_bound (by decide) h
  have hcl : closeTag.length = 10 := by decide
  simp only [List.length_append, List.length_take, List.length_drop]
  omega

/-- Fuel-indexed companion of `balanceDetailsTags`, structurally recursive
on the fuel so that concrete runs evaluate inside the kernel.  Each loop
iteration shortens the text, so `md.length` fuel always suffices. -/
def balanceFuel : Nat → List Char → List Char
  | 0, md => md
  | fuel + 1, md =>
    if goCount closeTag md ≤ goCount openTag md then md
    else
      match lastIndex? closeTag md with
      | none => md
      | some i => balanceFuel fuel (md.take i ++ md.drop (i + closeTag.length))

theorem balance_stop {md : List Char}
    (h : goCount closeTag md ≤ goCount openTag md) : balanceDetailsTags md = md := by
  rw [balanceDetailsTags]
  simp [h]

theorem balance_none {md : List Char} (h : lastIndex? closeTag md = none) :
    balanceDetailsTags md = md := by
  rw [balanceDetailsTags]
  by_cases hc : goCount closeTag md ≤ goCount openTag md
  · simp [hc]
  · simp only [if_neg hc]
    split
    · rfl
    · rename_i i hi
      rw [h] at hi
      cases hi

theorem balance_step {md : List Char} {i : Nat}
    (hc : ¬ goCount closeTag md ≤ goCount openTag md)
    (h : lastIndex? closeTag md = some i) :
    balanceDetailsTags md = balanceDetailsTags (md.take i ++ md.drop (i + closeTag.length)) := by
  rw [balanceDetailsTags]
  simp only [if_neg hc]
  split
  · rename_i hn
    rw [h] at hn
    cases hn
  · rename_i j hj
    rw [h] at hj
    cases hj
    rfl

theorem balanceFuel_eq : ∀ (fuel : Nat) (md : List Char), md.length ≤ fuel →
    balanceFuel fuel md = balanceDetailsTags md
  | 0, md, h => by
    have hnil : md = [] := List.length_eq_zero.mp (Nat.le_zero.mp h)
    subst hnil
    rw [balance_stop (by rw [goCount_nil, goCount_nil])]
    rfl
  | fuel + 1, md, h => by
    show (if goCount closeTag md ≤ goCount openTag md then md
          else
            match lastIndex? closeTag md with
            | none => md
            | some i => balanceFuel fuel (md.take i ++ md.drop (i + closeTag.length))) = _
    by_cases hc : goCount closeTag md ≤ goCount openTag md
    · rw [if_pos hc, balance_stop hc]
    · rw [if_neg hc]
      rcases hli : lastIndex? closeTag md with _ | i

      · rw [balance_none hli]
      · have hb := lastIndex_bound (by decide) hli
        have hcl : closeTag.length = 10 := by decide
        have hlen : (md.take i ++ md.drop (i + closeTag.length)).length ≤ fuel := by
          simp only [List.length_append, List.length_take, List.length_drop]
          omega
        rw [balance_step hc hli]
        exact balanceFuel_eq fuel _ hlen

/-- Every run of `balanceDetailsTags` is computed by the fuel companion
with fuel equal to the input length. -/
theorem balance_eval (md : List Char) : balanceDetailsTags md = balanceFuel md.length md :=
  (balanceFuel_eq md.length md le_rfl).symm

/-- Decomposition at the deletion site: if the last close-marker occurrence
is at `i`, the text splits as `take i ++ closeTag ++ drop (i + 10)`. -/
theorem lastIndex_decomp {md : List Char} {i : Nat}
    (hli : lastIndex? closeTag md = some i) :
    md = md.take i ++ (closeTag ++ md.drop (i + closeTag.length)) := by
  have hpre := lastIndex_some_prefixOf hli
  rw [List.isPrefixOf_iff_prefix] at hpre
  obtain ⟨r, hr⟩ := hpre
  have hrdrop : md.drop (i + closeTag.length) = r := by
    have h2 := congrArg (List.drop closeTag.length) hr
    rw [List.drop_left, List.drop_drop] at h2
    exact h2.symm
  rw [hrdrop, hr, List.take_append_drop]

/-- The three postconditions of the Balance Enforcer, proved together by
functional induction over the loop: the final close-count is at most the
final open-count, the open-count never decreases, and the text never
grows. -/
theorem balance_props (md : List Char) :
    goCount closeTag (balanceDetailsTags md) ≤ goCount openTag (balanceDetailsTags md) ∧
    goCount openTag md ≤ goCount openTag (balanceDetailsTags md) ∧
    (balanceDetailsTags md).length ≤ md.length := by
  induction md using balanceDetailsTags.induct with
  | case1 md hc =>
    rw [balance_stop hc]
    exact ⟨hc, le_rfl, le_rfl⟩
  | case2 md hc hli =>
    rw [balance_none hli]
    refine ⟨?_, le_rfl, le_rfl⟩
    rw [lastIndex_none_goCount hli]
    exact Nat.zero_le _
  | case3 md hc i hli ih =>
    rw [balance_step hc hli]
    obtain ⟨ih1, ih2, ih3⟩ := ih
    have hb := lastIndex_bound (by decide) hli
    have hcl : closeTag.length = 10 := by decide
    refine ⟨ih1, ?_, ?_⟩
    · have hmono : goCount openTag md ≤
          goCount openTag (md.take i ++ md.drop (i + closeTag.length)) := by
        rw [goCount_openTag_eq, goCount_openTag_eq]
        calc posCount openTag md
            = posCount openTag (md.take i ++ (closeTag ++ md.drop (i + closeTag.length))) := by
              rw [← lastIndex_decomp hli]
          _ ≤ posCount openTag (md.take i ++ md.drop (i + closeTag.length)) :=
              posCount_open_removal _ _
      exact hmono.trans ih2
    · refine ih3.trans ?_
      simp only [List.length_append, List.length_take, List.length_drop]
      omega

/-! ### Div-balance repair (preProcessHTML, markdown.go:306-313) -/

/-- The opening-div pattern counted by the repair: the literal `"<div"`. -/
def openDivPat : List Char := "<div".data

/-- The closing-div pattern: the literal `"</div>"`. -/
def closeDivPat : List Char := "</div>".data

/-- The repair loop: while the (decremented, not recounted) closer count
exceeds the opener count, `strings.Replace(html, "</div>", "", 1)` removes
the first — i.e. leftmost — occurrence of `"</div>"`. -/
def divBalanceLoop (openCount : Nat) : Nat → List Char → List Char
  | 0, html => html
  | closeCount + 1, html =>
    if openCount < closeCount + 1 then
      divBalanceLoop openCount closeCount (removeFirst closeDivPat html)
    else html

/-- The div-balance repair, final step of `preProcessHTML`: count `"<div"`
and `"</div>"` occurrences once, then run the removal loop. -/
def divBalanceRepair (html : List Char) : List Char :=
  divBalanceLoop (goCount openDivPat html) (goCount closeDivPat html) html

/-- Model of removing the rightmost occurrence of `pat` (the deletion step
the Balance Enforcer uses). -/
def removeLast (pat s : List Char) : List Char :=
  match lastIndex? pat s with
  | none => s
  | some i => s.take i ++ s.drop (i + pat.length)

/-- Modelled from the spec: §4.4 step 9 claims the repair removes excess
closing tags "one at a time from the rightmost occurrence".  This is the
same loop as `divBalanceLoop` with the rightmost occurrence deleted
instead of the leftmost; it is what the spec describes, for comparison
with the code's behaviour. -/
def divBalanceLoopRightmost (openCount : Nat) : Nat → List Char → List Char
  | 0, html => html
  | closeCount + 1, html =>
    if openCount < closeCount + 1 then
      divBalanceLoopRightmost openCount closeCount (removeLast closeDivPat html)
    else html

/-- Modelled from the spec: the div-balance repair as the spec words it,
deleting rightmost occurrences. -/
def divBalanceRepairRightmost (html : List Char) : List Char :=
  divBalanceLoopRightmost (goCount openDivPat html) (goCount closeDivPat html) html

/-- The repair loop iterates the leftmost-removal exactly
`closeCount - openCount` times. -/
theorem divBalanceLoop_eq_iterate (o : Nat) :
    ∀ (c : Nat) (h : List Char),
      divBalanceLoop o c h = (removeFirst closeDivPat)^[c - o] h
  | 0, h => by
    rw [show (0 : Nat) - o = 0 from Nat.zero_sub o]
    rfl
  | c + 1, h => by
    show (if o < c + 1 then divBalanceLoop o c (removeFirst closeDivPat h) else h) = _
    by_cases hoc : o < c + 1
    · rw [if_pos hoc, divBalanceLoop_eq_iterate o c (removeFirst closeDivPat h)]
      rw [show c + 1 - o = (c - o) + 1 by omega, Function.iterate_succ_apply]
    · rw [if_neg hoc, show c + 1 - o = 0 by omega]
      rfl

/-! ### Final steps of postProcessMarkdown (markdown.go:509-546) -/

/-- Rule of the regex rewrite `\n{3,}` → `"\n\n"`: a maximal run of three
or more newlines is replaced by exactly two. -/
def nlRule : Rule := fun s =>
  let run := s.takeWhile (fun c => c == '\n')
  if 3 ≤ run.length then some (['\n', '\n'], run.length) else none

/-- Normalize multiple blank lines to at most two newlines. -/
def collapseNewlines (s : List Char) : List Char := rewriteScan nlRule s 0

/-- Model of `strings.Split(s, "\n")`. -/
def splitNewlines : List Char → List (List Char)
  | [] => [[]]
  | c :: rest =>
    if c == '\n' then [] :: splitNewlines rest
    else
      match splitNewlines rest with
      | [] => [[c]]
      | l :: ls => (c :: l) :: ls

/-- Model of `strings.TrimRight(line, " \t")`. -/
def trimRightHT (l : List Char) : List Char :=
  (l.reverse.dropWhile (fun c => c == ' ' || c == '\t')).reverse

/-- Strip trailing horizontal whitespace from every line and rejoin with
newlines (the `strings.Split` / `TrimRight` / `strings.Join` step). -/
def trimLineEnds (s : List Char) : List Char :=
  List.intercalate ['\n'] ((splitNewlines s).map trimRightHT)

/-- The whitespace class of Go's `unicode.IsSpace` (space, tab, newline,
vertical tab, form feed, carriage return, next line, no-break space). -/
def isGoSpace (c : Char) : Bool :=
  c == ' ' || c == '\t' || c == '\n' || c == Char.ofNat 11 || c == Char.ofNat 12 ||
    c == '\r' || c == Char.ofNat 133 || c == Char.ofNat 160

/-- Model of `strings.TrimSpace`. -/
def goTrimSpace (s : List Char) : List Char :=
  ((s.dropWhile isGoSpace).reverse.dropWhile isGoSpace).reverse

/-- Applying one substitution pair with `strings.ReplaceAll`. -/
def applyPair (s : List Char) (pr : List Char × List Char) : List Char :=
  replaceAll pr.1 pr.2 s

/-- Applying a list of substitution pairs in order. -/
def applyPairsOrder (l : List (List Char × List Char)) (s : List Char) : List Char :=
  l.foldl applyPair s

/-- The `textEmojis` table, in source listing order.  (In Go this is a map
and its iteration order is unspecified; no two of these literal patterns
interact, and the properties proved below hold for any order.) -/
def textEmojiPairs : List (List Char × List Char) :=
  [(":celebration:".data, "🎉".data),
   (":thumbsup:".data, "👍".data),
   (":thumbsdown:".data, "👎".data),
   (":check:".data, "✅".data),
   (":cross:".data, "❌".data),
   (":warning:".data, "⚠️".data),
   (":info:".data, "ℹ️".data),
   (":question:".data, "❓".data),
   (":star:".data, "⭐".data),
   (":fire:".data, "🔥".data),
   (":rocket:".data, "🚀".data),
   (":sparkles:".data, "✨".data)]

/-- The final steps of `postProcessMarkdown`: blank-line normalization,
per-line trailing-whitespace strip, whole-document trim with exactly one
appended newline, then the Balance Enforcer, then the emoji shortcode
substitutions.  (The earlier steps of `postProcessMarkdown` are
regex-driven rewrites that do not touch the inputs considered here.) -/
def postProcessTail (md : List Char) : List Char :=
  applyPairsOrder textEmojiPairs
    (balanceDetailsTags (goTrimSpace (trimLineEnds (collapseNewlines md)) ++ ['\n']))

/-- The text ends with one newline and not two. -/
def endsInExactlyOneNewline (s : List Char) : Prop :=
  s.getLast? = some '\n' ∧ s.dropLast.getLast? ≠ some '\n'

instance (s : List Char) : Decidable (endsInExactlyOneNewline s) := by
  unfold endsInExactlyOneNewline
  infer_instance

theorem getLast?_append_right {a b : List Char} (hb : b ≠ []) :
    (a ++ b).getLast? = b.getLast? :=
  List.getLast?_append_of_ne_nil a hb

/-- `strings.ReplaceAll` cannot touch a final character that does not
occur in the pattern. -/
theorem replaceAll_getLast_ne {pat rep : List Char} {ch : Char}
    (hch : ch ∉ pat) (hne : pat ≠ []) (s : List Char) (hs : s.getLast? = some ch) :
    (replaceAll pat rep s).getLast? = some ch := by
  have main : ∀ n (s : List Char), s.length ≤ n → s.getLast? = some ch →
      (replaceAll pat rep s).getLast? = some ch := by
    intro n
    induction n with
    | zero =>
      intro s hlen hlast
      rw [List.length_eq_zero.mp (Nat.le_zero.mp hlen)] at hlast
      cases hlast
    | succ n ih =>
      intro s hlen hlast
      match s with
      | [] => cases hlast
      | c :: rest =>
        by_cases hp : pat.isPrefixOf (c :: rest)
        · obtain ⟨r, hr⟩ := List.isPrefixOf_iff_prefix.mp hp
          have hdrop : (c :: rest).drop pat.length = r := by
            rw [← hr, List.drop_left]
          rw [replaceAll_pos hne hp, hdrop]
          match r, hr with
          | [], hr =>
            exfalso
            rw [List.append_nil] at hr
            rw [hr] at hch
            exact hch (List.mem_of_getLast?_eq_some hlast)
          | r1 :: rs, hr =>
            have hrlast : (r1 :: rs).getLast? = some ch := by
              rw [← hlast, ← hr, getLast?_append_right (by simp)]
            have hrlen : (r1 :: rs).length ≤ n := by
              have h3 := congrArg List.length hr
              rw [List.length_append] at h3
              have hple : 1 ≤ pat.length := by
                cases pat with
                | nil => exact absurd rfl hne
                | cons p ps => simp
              simp only [List.length_cons] at h3 hlen ⊢
              omega
            have hres := ih (r1 :: rs) hrlen hrlast
            rw [getLast?_append_right (by intro hnil; rw [hnil] at hres; cases hres)]
            exact hres
        · rw [replaceAll_neg hp]
          match rest with
          | [] =>
            rw [show replaceAll pat rep [] = [] from rfl]
            exact hlast
          | r1 :: rs =>
            rw [List.getLast?_cons_cons] at hlast
            have hres := ih (r1 :: rs) (by simp at hlen ⊢; omega) hlast
            have hne2 : replaceAll pat rep (r1 :: rs) ≠ [] := by
              intro hnil
              rw [hnil] at hres
              cases hres
            rw [show c :: replaceAll pat rep (r1 :: rs) =
              [c] ++ replaceAll pat rep (r1 :: rs) from rfl, getLast?_append_right hne2]
            exact hres
  exact main s.length s le_rfl hs

/-- A fold of `strings.ReplaceAll` substitutions none of whose patterns
contain the final character preserves that final character. -/
theorem applyPairsOrder_getLast {ch : Char} :
    ∀ (l : List (List Char × List Char)), (∀ pr ∈ l, pr.1 ≠ [] ∧ ch ∉ pr.1) →
      ∀ s, s.getLast? = some ch → (applyPairsOrder l s).getLast? = some ch
  | [], _, s, hs => hs
  | pr :: l, hl, s, hs => by
    have hpr := hl pr (List.mem_cons_self pr l)
    exact applyPairsOrder_getLast l (fun q hq => hl q (List.mem_cons_of_mem pr hq)) _
      (replaceAll_getLast_ne hpr.2 hpr.1 s hs)

/-- The Balance Enforcer preserves a final newline: the deleted marker
ends in `'>'`, so it can never be the final-newline position. -/
theorem balance_getLast_nl (md : List Char) (h : md.getLast? = some '\n') :
    (balanceDetailsTags md).getLast? = some '\n' := by
  induction md using balanceDetailsTags.induct with
  | case1 md hc => rwa [balance_stop hc]
  | case2 md hc hli => rwa [balance_none hli]
  | case3 md hc i hli ih =>
    rw [balance_step hc hli]
    have hdec := lastIndex_decomp hli
    rcases hd : md.drop (i + closeTag.length) with _ | ⟨d1, ds⟩
    · exfalso
      rw [hd, List.append_nil] at hdec
      rw [hdec, getLast?_append_right (show closeTag ≠ [] by decide)] at h
      have hgt : closeTag.getLast? = some '>' := by decide
      rw [hgt] at h
      cases h
    · have hlast2 : (md.take i ++ md.drop (i + closeTag.length)).getLast? = some '\n' := by
        rw [hd, getLast?_append_right (by simp)]
        rw [hdec, hd, getLast?_append_right (by simp), getLast?_append_right (by simp)] at h
        exact h
      rw [← hd]
      exact ih hlast2

/-- The document-trim step leaves no trailing whitespace, so appending one
newline yields a text ending in exactly one newline. -/
theorem goTrimSpace_concat_nl (x : List Char) :
    endsInExactlyOneNewline (goTrimSpace x ++ ['\n']) := by
  constructor
  · exact List.getLast?_concat _
  · rw [List.dropLast_concat]
    intro hlast
    have hhead : ((x.dropWhile isGoSpace).reverse.dropWhile isGoSpace).head? = some '\n' := by
      rw [← List.getLast?_reverse]
      exact hlast
    have h2 := List.head?_dropWhile_not isGoSpace (x.dropWhile isGoSpace).reverse
    rw [hhead] at h2
    simp only at h2
    rw [show isGoSpace '\n' = true by decide] at h2
    cases h2

/-! ### Order-(in)dependence of the entity substitution table -/

/-- A prefix of the output of `replaceAll` either contains a replacement
character or was already a prefix of the input. -/
theorem prefix_replaceAll {pat rep : List Char} (hpat : pat ≠ []) (hrep : rep ≠ []) :
    ∀ {s R : List Char}, R <+: replaceAll pat rep s → (∃ x ∈ rep, x ∈ R) ∨ R <+: s := by
  have main : ∀ n (s : List Char), s.length ≤ n → ∀ R : List Char,
      R <+: replaceAll pat rep s → (∃ x ∈ rep, x ∈ R) ∨ R <+: s := by
    intro n
    induction n with
    | zero =>
      intro s hlen R hR
      rw [List.length_eq_zero.mp (Nat.le_zero.mp hlen)] at hR ⊢
      exact Or.inr hR
    | succ n ih =>
      intro s hlen R hR
      match s with
      | [] => exact Or.inr hR
      | c :: rest =>
        by_cases hp : pat.isPrefixOf (c :: rest)
        · rw [replaceAll_pos hpat hp] at hR
          rcases prefix_break hR with hle | ⟨hrp, _⟩
          · have hRrep : R <+: rep := (prefix_append_iff_of_length_le hle).mp hR
            match R with
            | [] => exact Or.inr (List.nil_prefix)
            | x :: R' =>
              obtain ⟨u, hu⟩ := hRrep
              left
              exact ⟨x, by rw [← hu]; exact List.mem_cons_self x (R' ++ u),
                List.mem_cons_self x R'⟩
          · match rep, hrep with
            | y :: rep', _ =>
              left
              exact ⟨y, List.mem_cons_self y rep', hrp.subset (List.mem_cons_self y rep')⟩
        · rw [replaceAll_neg hp] at hR
          match R with
          | [] => exact Or.inr List.nil_prefix
          | x :: R' =>
            rw [List.cons_prefix_cons] at hR
            obtain ⟨rfl, hR'⟩ := hR
            rcases ih rest (by simp at hlen; omega) R' hR' with ⟨y, hy1, hy2⟩ | hpre
            · exact Or.inl ⟨y, hy1, List.mem_cons_of_mem x hy2⟩
            · exact Or.inr (List.cons_prefix_cons.mpr ⟨rfl, hpre⟩)
  intro s R
  exact main s.length s le_rfl R

/-- An infix of `u ++ v` that avoids all characters of `u` is an infix of
`v`. -/
theorem infix_append_cases :
    ∀ {u v R : List Char}, R <:+: u ++ v → (∃ x ∈ u, x ∈ R) ∨ R <:+: v
  | [], v, R, h => Or.inr h
  | x :: u, v, R, h => by
    rcases List.infix_cons_iff.mp h with hpre | hinf
    · match R with
      | [] => exact Or.inr (List.nil_infix)
      | y :: R' =>
        rw [List.cons_prefix_cons] at hpre
        obtain ⟨rfl, _⟩ := hpre
        exact Or.inl ⟨y, List.mem_cons_self y u, List.mem_cons_self y R'⟩
    · rcases infix_append_cases hinf with ⟨y, hy1, hy2⟩ | h2
      · exact Or.inl ⟨y, List.mem_cons_of_mem x hy1, hy2⟩
      · exact Or.inr h2

/-- An infix of the output of `replaceAll` either contains a replacement
character or was already an infix of the input. -/
theorem infix_replaceAll {pat rep : List Char} (hpat : pat ≠ []) (hrep : rep ≠ []) :
    ∀ {s R : List Char}, R <:+: replaceAll pat rep s → (∃ x ∈ rep, x ∈ R) ∨ R <:+: s := by
  have main : ∀ n (s : List Char), s.length ≤ n → ∀ R : List Char,
      R <:+: replaceAll pat rep s → (∃ x ∈ rep, x ∈ R) ∨ R <:+: s := by
    intro n
    induction n with
    | zero =>
      intro s hlen R hR
      rw [List.length_eq_zero.mp (Nat.le_zero.mp hlen)] at hR ⊢
      exact Or.inr hR
    | succ n ih =>
      intro s hlen R hR
      match s with
      | [] => exact Or.inr hR
      | c :: rest =>
        by_cases hp : pat.isPrefixOf (c :: rest)
        · rw [replaceAll_pos hpat hp] at hR
          rcases infix_append_cases hR with hrep2 | hinf
          · exact Or.inl hrep2
          · have hlen2 : ((c :: rest).drop pat.length).length ≤ n := by
              simp only [List.length_drop, List.length_cons] at *
              have hple : 1 ≤ pat.length := by
                cases pat with
                | nil => exact absurd rfl hpat
                | cons p ps => simp
              omega
            rcases ih _ hlen2 R hinf with hl | hr2
            · exact Or.inl hl
            · exact Or.inr (hr2.trans (List.drop_suffix _ _).isInfix)
        · rw [replaceAll_neg hp] at hR
          rcases List.infix_cons_iff.mp hR with hpre | hinf
          · match R with
            | [] => exact Or.inr (List.nil_infix)
            | x :: R' =>
              rw [List.cons_prefix_cons] at hpre
              obtain ⟨rfl, hR'⟩ := hpre
              rcases prefix_replaceAll hpat hrep hR' with ⟨y, hy1, hy2⟩ | hp2
              · exact Or.inl ⟨y, hy1, List.mem_cons_of_mem x hy2⟩
              · exact Or.inr (List.cons_prefix_cons.mpr ⟨rfl, hp2⟩).isInfix
          · rcases ih rest (by simp at hlen; omega) R hinf with hl | hr2
            · exact Or.inl hl
            · exact Or.inr (List.infix_cons hr2)
  intro s R
  exact main s.length s le_rfl R

/-- If the pattern occurs nowhere in the text, `strings.ReplaceAll` is the
identity. -/
theorem replaceAll_noop_of_absent {pat rep : List Char} :
    ∀ {s : List Char}, ¬ pat <:+: s → replaceAll pat rep s = s
  | [], _ => rfl
  | c :: rest, h => by
    have hp : ¬ pat.isPrefixOf (c :: rest) := by
      intro hp
      exact h (List.isPrefixOf_iff_prefix.mp hp).isInfix
    rw [replaceAll_neg hp,
      replaceAll_noop_of_absent (fun hinf => h (List.infix_cons hinf))]

/-- `replaceAll` passes over a block whose characters all differ from the
pattern's head character. -/
theorem replaceAll_skip_block {a : Char} {pt rep : List Char} :
    ∀ {u : List Char}, (∀ x ∈ u, x ≠ a) →
      ∀ v, replaceAll (a :: pt) rep (u ++ v) = u ++ replaceAll (a :: pt) rep v
  | [], _, v => rfl
  | x :: u, hu, v => by
    have hp : ¬ (a :: pt).isPrefixOf (x :: (u ++ v)) := by
      simp only [List.isPrefixOf, Bool.and_eq_true, beq_iff_eq]
      intro hfalse
      exact hu x (List.mem_cons_self x u) hfalse.1.symm
    rw [List.cons_append, replaceAll_neg hp,
      replaceAll_skip_block (fun y hy => hu y (List.mem_cons_of_mem x hy)) v,
      List.cons_append]

/-- Two patterns neither of which is a prefix of the other: the second
cannot match at the start of the first plus anything. -/
theorem not_prefix_pattern_append {P Q t : List Char}
    (hPQ : ¬ P <+: Q) (hQP : ¬ Q <+: P) : ¬ Q <+: P ++ t := by
  intro h
  rcases prefix_break h with hle | ⟨hp, _⟩
  · exact hQP ((prefix_append_iff_of_length_le hle).mp h)
  · exact hPQ hp

/-- One step of the commutation argument: both substitutions commute on a
text that starts with the first pattern, given that they commute on the
tail after it. -/
theorem comm_step {a : Char} {Pt Qt rP rQ : List Char}
    (hPt : ∀ x ∈ Pt, x ≠ a)
    (hPQ : ¬ (a :: Pt) <+: (a :: Qt)) (hQP : ¬ (a :: Qt) <+: (a :: Pt))
    (hrP : ∀ x ∈ rP, x ≠ a) (t : List Char)
    (IH : replaceAll (a :: Qt) rQ (replaceAll (a :: Pt) rP t) =
          replaceAll (a :: Pt) rP (replaceAll (a :: Qt) rQ t)) :
    replaceAll (a :: Qt) rQ (replaceAll (a :: Pt) rP ((a :: Pt) ++ t)) =
      replaceAll (a :: Pt) rP (replaceAll (a :: Qt) rQ ((a :: Pt) ++ t)) := by
  have hself : ∀ v : List Char, (a :: Pt).isPrefixOf ((a :: Pt) ++ v) := by
    intro v
    exact List.isPrefixOf_iff_prefix.mpr (List.prefix_append _ _)
  have hdrop : ∀ v : List Char, ((a :: Pt) ++ v).drop (a :: Pt).length = v := by
    intro v
    exact List.drop_left _ _
  have e1 : ∀ v : List Char,
      replaceAll (a :: Pt) rP ((a :: Pt) ++ v) = rP ++ replaceAll (a :: Pt) rP v := by
    intro v
    have hpre : (a :: Pt).isPrefixOf (a :: (Pt ++ v)) := by
      rw [← List.cons_append]
      exact hself v
    rw [List.cons_append, replaceAll_pos (by simp) hpre, ← List.cons_append, hdrop v]
  have e3 : replaceAll (a :: Qt) rQ ((a :: Pt) ++ t) =
      (a :: Pt) ++ replaceAll (a :: Qt) rQ t := by
    have hnp : ¬ (a :: Qt).isPrefixOf (a :: (Pt ++ t)) := by
      intro hb
      exact not_prefix_pattern_append hPQ hQP (List.isPrefixOf_iff_prefix.mp hb)
    rw [show (a :: Pt) ++ t = a :: (Pt ++ t) from rfl, replaceAll_neg hnp,
      replaceAll_skip_block hPt t]
    rfl
  rw [e1 t, replaceAll_skip_block hrP (replaceAll (a :: Pt) rP t), IH, e3,
    e1 (replaceAll (a :: Qt) rQ t)]

/-- Two entity substitutions whose patterns share the head character `a`,
contain it nowhere else, are not prefixes of one another, and whose
replacement texts contain no character of the other pattern, commute. -/
theorem replaceAll_comm {a : Char} {Pt Qt rP rQ : List Char}
    (hPt : ∀ x ∈ Pt, x ≠ a) (hQt : ∀ x ∈ Qt, x ≠ a)
    (hPQ : ¬ (a :: Pt) <+: (a :: Qt)) (hQP : ¬ (a :: Qt) <+: (a :: Pt))
    (hrP : ∀ x ∈ rP, x ∉ (a :: Qt)) (hrQ : ∀ x ∈ rQ, x ∉ (a :: Pt))
    (hrPne : rP ≠ []) (hrQne : rQ ≠ []) :
    ∀ s, replaceAll (a :: Qt) rQ (replaceAll (a :: Pt) rP s) =
         replaceAll (a :: Pt) rP (replaceAll (a :: Qt) rQ s) := by
  have hrPa : ∀ x ∈ rP, x ≠ a := by
    intro x hx hxa
    exact hrP x hx (hxa ▸ List.mem_cons_self a Qt)
  have hrQa : ∀ x ∈ rQ, x ≠ a := by
    intro x hx hxa
    exact hrQ x hx (hxa ▸ List.mem_cons_self a Pt)
  have main : ∀ n (s : List Char), s.length ≤ n →
      replaceAll (a :: Qt) rQ (replaceAll (a :: Pt) rP s) =
        replaceAll (a :: Pt) rP (replaceAll (a :: Qt) rQ s) := by
    intro n
    induction n with
    | zero =>
      intro s hlen
      rw [List.length_eq_zero.mp (Nat.le_zero.mp hlen)]
      rfl
    | succ n ih =>
      intro s hlen
      match s with
      | [] => rfl
      | c :: rest =>
        by_cases hp : (a :: Pt).isPrefixOf (c :: rest)
        · obtain ⟨t, ht⟩ := List.isPrefixOf_iff_prefix.mp hp
          have htlen : t.length ≤ n := by
            have h3 := congrArg List.length ht
            simp only [List.length_append, List.length_cons] at h3 hlen
            omega
          rw [← ht]
          exact comm_step hPt hPQ hQP hrPa t (ih t htlen)
        · by_cases hq : (a :: Qt).isPrefixOf (c :: rest)
          · obtain ⟨t, ht⟩ := List.isPrefixOf_iff_prefix.mp hq
            have htlen : t.length ≤ n := by
              have h3 := congrArg List.length ht
              simp only [List.length_append, List.length_cons] at h3 hlen
              omega
            rw [← ht]
            exact (comm_step hQt hQP hPQ hrQa t (ih t htlen).symm).symm
          · have hrest : rest.length ≤ n := by
              simp only [List.length_cons] at hlen
              omega
            have hq2 : ¬ (a :: Qt).isPrefixOf (c :: replaceAll (a :: Pt) rP rest) := by
              intro hb
              obtain ⟨rfl, hQt2⟩ := List.cons_prefix_cons.mp (List.isPrefixOf_iff_prefix.mp hb)
              rcases prefix_replaceAll (by simp) hrPne hQt2 with ⟨y, hy1, hy2⟩ | hpre
              · exact hrP y hy1 (List.mem_cons_of_mem _ hy2)
              · exact hq (List.isPrefixOf_iff_prefix.mpr (List.cons_prefix_cons.mpr ⟨rfl, hpre⟩))
            have hp2 : ¬ (a :: Pt).isPrefixOf (c :: replaceAll (a :: Qt) rQ rest) := by
              intro hb
              obtain ⟨rfl, hPt2⟩ := List.cons_prefix_cons.mp (List.isPrefixOf_iff_prefix.mp hb)
              rcases prefix_replaceAll (by simp) hrQne hPt2 with ⟨y, hy1, hy2⟩ | hpre
              · exact hrQ y hy1 (List.mem_cons_of_mem _ hy2)
              · exact hp (List.isPrefixOf_iff_prefix.mpr (List.cons_prefix_cons.mpr ⟨rfl, hpre⟩))
            rw [replaceAll_neg hp, replaceAll_neg hq2, replaceAll_neg hq, replaceAll_neg hp2,
              ih rest hrest]
  intro s
  exact main s.length s le_rfl

/-- The `htmlEntityMap` table of the Entity Decoder, in source listing
order.  (In Go this is a map; its iteration order is unspecified, which is
exactly what claim C6 is about.) -/
def entityPairs : List (List Char × List Char) :=
  [("&lt;".data, "<".data),
   ("&gt;".data, ">".data),
   ("&amp;".data, "&".data),
   ("&quot;".data, "\"".data),
   ("&#39;".data, "'".data),
   ("&apos;".data, "'".data),
   ("&#x27;".data, "'".data),
   ("&#34;".data, "\"".data),
   ("&#60;".data, "<".data),
   ("&#62;".data, ">".data),
   ("&#38;".data, "&".data),
   ("&nbsp;".data, " ".data)]

/-- The same table with the `&amp;` row moved to the front: a second
iteration order of the Go map, used to exhibit order dependence. -/
def entityPairsAmpFirst : List (List Char × List Char) :=
  [("&amp;".data, "&".data),
   ("&lt;".data, "<".data),
   ("&gt;".data, ">".data),
   ("&quot;".data, "\"".data),
   ("&#39;".data, "'".data),
   ("&apos;".data, "'".data),
   ("&#x27;".data, "'".data),
   ("&#34;".data, "\"".data),
   ("&#60;".data, "<".data),
   ("&#62;".data, ">".data),
   ("&#38;".data, "&".data),
   ("&nbsp;".data, " ".data)]

/-- Absence of the two ampersand-producing entities.  The substitutions
`&amp;` → `&` and `&#38;` → `&` can create brand-new entity occurrences
(e.g. in `"&amp;lt;"`); on texts free of them the whole table is
order-independent. -/
def ampFree (s : List Char) : Prop :=
  ¬ "&amp;".data <:+: s ∧ ¬ "&#38;".data <:+: s

theorem applyPair_producer_noop {s : List Char} (h : ampFree s)
    {pr : List Char × List Char}
    (hpr : pr = ("&amp;".data, "&".data) ∨ pr = ("&#38;".data, "&".data)) :
    applyPair s pr = s := by
  rcases hpr with rfl | rfl
  · exact replaceAll_noop_of_absent h.1
  · exact replaceAll_noop_of_absent h.2

theorem replaceAll_preserves_absence {pat rep R : List Char}
    (hpat : pat ≠ []) (hrep : rep ≠ []) (hR : ∀ x ∈ rep, x ∉ R)
    {s : List Char} (h : ¬ R <:+: s) : ¬ R <:+: replaceAll pat rep s := by
  intro hinf
  rcases infix_replaceAll hpat hrep hinf with ⟨y, hy1, hy2⟩ | h2
  · exact hR y hy1 hy2
  · exact h h2

/-- Every substitution of the table preserves `ampFree`: the two producers
are no-ops on such texts, and no other replacement character occurs in
either producer pattern. -/
theorem applyPair_preserves_ampFree {s : List Char} (h : ampFree s) :
    ∀ pr ∈ entityPairs, ampFree (applyPair s pr) := by
  intro pr hpr
  simp only [entityPairs, List.mem_cons, List.not_mem_nil, or_false] at hpr
  rcases hpr with rfl | rfl | rfl | rfl | rfl | rfl | rfl | rfl | rfl | rfl | rfl | rfl <;>
    first
    | (rw [applyPair_producer_noop h (Or.inl rfl)]; exact h)
    | (rw [applyPair_producer_noop h (Or.inr rfl)]; exact h)
    | (exact ⟨replaceAll_preserves_absence (by decide) (by decide) (by decide) h.1,
        replaceAll_preserves_absence (by decide) (by decide) (by decide) h.2⟩)

/-- Any two substitutions of the table commute on `ampFree` texts. -/
theorem applyPair_comm {s : List Char} (h : ampFree s)
    {p q : List Char × List Char} (hp : p ∈ entityPairs) (hq : q ∈ entityPairs) :
    applyPair (applyPair s p) q = applyPair (applyPair s q) p := by
  have hqpres : ampFree (applyPair s q) := applyPair_preserves_ampFree h q hq
  have hppres : ampFree (applyPair s p) := applyPair_preserves_ampFree h p hp
  by_cases hpp : p = ("&amp;".data, "&".data) ∨ p = ("&#38;".data, "&".data)
  · rw [applyPair_producer_noop h hpp, applyPair_producer_noop hqpres hpp]
  · by_cases hqq : q = ("&amp;".data, "&".data) ∨ q = ("&#38;".data, "&".data)
    · rw [applyPair_producer_noop h hqq, applyPair_producer_noop hppres hqq]
    · simp only [entityPairs, List.mem_cons, List.not_mem_nil, or_false] at hp hq
      rcases hp with rfl | rfl | rfl | rfl | rfl | rfl | rfl | rfl | rfl | rfl | rfl | rfl <;>
        rcases hq with rfl | rfl | rfl | rfl | rfl | rfl | rfl | rfl | rfl | rfl | rfl | rfl <;>
        first
        | rfl
        | (exact absurd (Or.inl rfl) hpp)
        | (exact absurd (Or.inr rfl) hpp)
        | (exact absurd (Or.inl rfl) hqq)
        | (exact absurd (Or.inr rfl) hqq)
        | (exact replaceAll_comm (by decide) (by decide) (by decide) (by decide)
            (by decide) (by decide) (by decide) (by decide) s)

/-- Folding the table over an `ampFree` text is invariant under
permutation of the table. -/
theorem applyPairsOrder_perm :
    ∀ {l₁ l₂ : List (List Char × List Char)}, l₁.Perm l₂ →
      (∀ pr ∈ l₁, pr ∈ entityPairs) →
      ∀ s, ampFree s → applyPairsOrder l₁ s = applyPairsOrder l₂ s := by
  intro l₁ l₂ hperm
  induction hperm with
  | nil =>
    intro _ s _
    rfl
  | cons x hp ih =>
    intro hsub s hs
    show applyPairsOrder _ (applyPair s x) = applyPairsOrder _ (applyPair s x)
    exact ih (fun pr hpr => hsub pr (List.mem_cons_of_mem x hpr)) _
      (applyPair_preserves_ampFree hs x (hsub x (List.mem_cons_self x _)))
  | swap x y l =>
    intro hsub s hs
    show applyPairsOrder l (applyPair (applyPair s y) x) =
         applyPairsOrder l (applyPair (applyPair s x) y)
    rw [applyPair_comm hs (hsub y (List.mem_cons_self y _))
      (hsub x (List.mem_cons_of_mem y (List.mem_cons_self x _)))]
  | trans hp1 hp2 ih1 ih2 =>
    intro hsub s hs
    rw [ih1 hsub s hs, ih2 (fun pr hpr => hsub pr (hp1.mem_iff.mpr hpr)) s hs]

/-! ### Numeric character references (decodeHTMLEntities, markdown.go:125-170) -/

/-- `maxASCIICodePoint` (markdown.go:22): numeric references are decoded
only when strictly below this bound (and strictly above zero). -/
def maxASCIICodePoint : Nat := 127

/-- The character class of the regex `[0-9a-fA-F]`. -/
def goIsHexDigit (c : Char) : Bool :=
  c.isDigit || ('a' ≤ c && c ≤ 'f') || ('A' ≤ c && c ≤ 'F')

/-- Value of one (hex or decimal) digit character. -/
def digitVal (c : Char) : Nat :=
  if c.isDigit then c.toNat - 48 else if 'a' ≤ c then c.toNat - 87 else c.toNat - 55

/-- Value of a digit string (`strconv.ParseInt` on a digit-only body; an
over-wide Go value errors out in the source and the reference is then kept,
which coincides with the `v < 127` test failing here). -/
def digitsVal (base : Nat) (ds : List Char) : Nat :=
  ds.foldl (fun a c => a * base + digitVal c) 0

/-- Rule of one numeric-reference rewrite, e.g. `&#x([0-9a-fA-F]+);` with
`ReplaceAllStringFunc`: at a position starting with `pre`, take the maximal
digit run; if it is non-empty and followed by `';'`, the whole reference is
the match: it becomes the referenced character when `0 < v < 127` and is
kept verbatim otherwise. -/
def numRule (pre : List Char) (isDig : Char → Bool) (base : Nat) : Rule := fun s =>
  if pre.isPrefixOf s then
    let after := s.drop pre.length
    let digits := after.takeWhile isDig
    if digits.isEmpty then none
    else
      match after.dropWhile isDig with
      | ';' :: _ =>
        let L := pre.length + digits.length + 1
        let v := digitsVal base digits
        some (if 0 < v ∧ v < maxASCIICodePoint then [Char.ofNat v] else s.take L, L)
      | _ => none
  else none

/-- The hex pass: `&#xHH;` with `x` lowercase (the source regex has a
literal lowercase `x`; the hex digits themselves are case-insensitive). -/
def hexEntityPass (s : List Char) : List Char :=
  rewriteScan (numRule "&#x".data goIsHexDigit 16) s 0

/-- The decimal pass: `&#NN;`. -/
def decEntityPass (s : List Char) : List Char :=
  rewriteScan (numRule "&#".data Char.isDigit 10) s 0

/-- The two numeric passes in source order (hex first, then decimal). -/
def numericEntityPasses (s : List Char) : List Char := decEntityPass (hexEntityPass s)

/-- Model of `decodeHTMLEntities` (markdown.go:125-170): fast path when
the text contains neither `"&lt;"` nor `"&#"`, otherwise the named-entity
table (a Go map iteration, listed here in source order) followed by the
hex and decimal numeric passes. -/
def decodeHTMLEntities (html : List Char) : List Char :=
  if !containsSub "&lt;".data html && !containsSub "&#".data html then html
  else numericEntityPasses (applyPairsOrder entityPairs html)

theorem numRule_none_of_not_prefix {pre : List Char} {isDig : Char → Bool} {base : Nat}
    {u : List Char} (h : ¬ pre.isPrefixOf u) : numRule pre isDig base u = none := by
  unfold numRule
  rw [if_neg h]

/-- Inside a block without `'&'`, an `'&'`-headed numeric rule never
fires. -/
theorem numRule_noop_in_tail {pre2 : List Char} {isDig : Char → Bool} {base : Nat}
    {T u : List Char} (hT : '&' ∉ T) (hu : u <:+ T) :
    numRule ('&' :: pre2) isDig base u = none := by
  apply numRule_none_of_not_prefix
  intro hp
  match u, hp with
  | u0 :: u', hp =>
    simp only [List.isPrefixOf, Bool.and_eq_true, beq_iff_eq] at hp
    rw [← hp.1] at hu
    exact hT (hu.subset (List.mem_cons_self '&' u'))

theorem scan_noop_after_amp {pre2 : List Char} {isDig : Char → Bool} {base : Nat}
    {T : List Char} (hT : '&' ∉ T) :
    rewriteScan (numRule ('&' :: pre2) isDig base) T 0 = T :=
  rewriteScan_noop (fun u hu => numRule_noop_in_tail hT hu)

/-- The decimal pass on a well-formed decimal reference `&#NN;`: decoded
exactly when `0 < NN < 127`, kept verbatim otherwise. -/
theorem decPass_wellformed {d : List Char} (hne : d ≠ []) (hd : ∀ c ∈ d, c.isDigit) :
    decEntityPass ('&' :: '#' :: (d ++ [';'])) =
      if 0 < digitsVal 10 d ∧ digitsVal 10 d < maxASCIICodePoint
      then [Char.ofNat (digitsVal 10 d)]
      else '&' :: '#' :: (d ++ [';']) := by
  have hpre : (['&', '#'] : List Char).isPrefixOf ('&' :: '#' :: (d ++ [';'])) := by
    simp [List.isPrefixOf]
  have hdig1 : (d ++ [';']).takeWhile Char.isDigit = d := by
    rw [List.takeWhile_append_of_pos hd,
      show List.takeWhile Char.isDigit [';'] = [] from rfl, List.append_nil]
  have hdig2 : (d ++ [';']).dropWhile Char.isDigit = [';'] := by
    rw [List.dropWhile_append_of_pos hd]
    rfl
  have htake : ('&' :: '#' :: (d ++ [';'])).take (2 + d.length + 1) =
      '&' :: '#' :: (d ++ [';']) := by
    apply List.take_of_length_le
    simp only [List.length_cons, List.length_append, List.length_nil]
    omega
  have hrule : numRule "&#".data Char.isDigit 10 ('&' :: '#' :: (d ++ [';'])) =
      some (if 0 < digitsVal 10 d ∧ digitsVal 10 d < maxASCIICodePoint
            then [Char.ofNat (digitsVal 10 d)]
            else '&' :: '#' :: (d ++ [';']), 2 + d.length + 1) := by
    rw [show "&#".data = ['&', '#'] from rfl]
    unfold numRule
    rw [if_pos hpre]
    simp only [List.length_cons, List.length_nil, List.drop_succ_cons, List.drop_zero,
      hdig1, hdig2, List.isEmpty_iff]
    rw [if_neg hne, htake]
  unfold decEntityPass
  rw [rewriteScan_pos hrule (by omega)]
  have hdropall : ('&' :: '#' :: (d ++ [';'])).drop (2 + d.length + 1) = [] := by
    apply List.drop_eq_nil_of_le
    simp only [List.length_cons, List.length_append, List.length_nil]
    omega
  rw [hdropall, show rewriteScan (numRule "&#".data Char.isDigit 10) [] 0 = [] from rfl,
    List.append_nil]

/-- The hex pass on a well-formed hex reference `&#xHH;` (digits of either
case): decoded exactly when `0 < HH < 127`, kept verbatim otherwise. -/
theorem hexPass_wellformed {h : List Char} (hne : h ≠ []) (hh : ∀ c ∈ h, goIsHexDigit c) :
    hexEntityPass ('&' :: '#' :: 'x' :: (h ++ [';'])) =
      if 0 < digitsVal 16 h ∧ digitsVal 16 h < maxASCIICodePoint
      then [Char.ofNat (digitsVal 16 h)]
      else '&' :: '#' :: 'x' :: (h ++ [';']) := by
  have hpre : (['&', '#', 'x'] : List Char).isPrefixOf ('&' :: '#' :: 'x' :: (h ++ [';'])) := by
    simp [List.isPrefixOf]
  have hdig1 : (h ++ [';']).takeWhile goIsHexDigit = h := by
    rw [List.takeWhile_append_of_pos hh,
      show List.takeWhile goIsHexDigit [';'] = [] from rfl, List.append_nil]
  have hdig2 : (h ++ [';']).dropWhile goIsHexDigit = [';'] := by
    rw [List.dropWhile_append_of_pos hh]
    rfl
  have htake : ('&' :: '#' :: 'x' :: (h ++ [';'])).take (3 + h.length + 1) =
      '&' :: '#' :: 'x' :: (h ++ [';']) := by
    apply List.take_of_length_le
    simp only [List.length_cons, List.length_append, List.length_nil]
    omega
  have hrule : numRule "&#x".data goIsHexDigit 16 ('&' :: '#' :: 'x' :: (h ++ [';'])) =
      some (if 0 < digitsVal 16 h ∧ digitsVal 16 h < maxASCIICodePoint
            then [Char.ofNat (digitsVal 16 h)]
            else '&' :: '#' :: 'x' :: (h ++ [';']), 3 + h.length + 1) := by
    rw [show "&#x".data = ['&', '#', 'x'] from rfl]
    unfold numRule
    rw [if_pos hpre]
    simp only [List.length_cons, List.length_nil, List.drop_succ_cons, List.drop_zero,
      hdig1, hdig2, List.isEmpty_iff]
    rw [if_neg hne, htake]
  unfold hexEntityPass
  rw [rewriteScan_pos hrule (by omega)]
  have hdropall : ('&' :: '#' :: 'x' :: (h ++ [';'])).drop (3 + h.length + 1) = [] := by
    apply List.drop_eq_nil_of_le
    simp only [List.length_cons, List.length_append, List.length_nil]
    omega
  rw [hdropall, show rewriteScan (numRule "&#x".data goIsHexDigit 16) [] 0 = [] from rfl,
    List.append_nil]

/-- The hex pass does not touch a decimal reference (no `x` after `&#`),
nor anything after its leading ampersand. -/
theorem hexPass_noop_on_dec {d : List Char} (hne : d ≠ []) (hd : ∀ c ∈ d, c.isDigit) :
    hexEntityPass ('&' :: '#' :: (d ++ [';'])) = '&' :: '#' :: (d ++ [';']) := by
  unfold hexEntityPass
  apply rewriteScan_noop
  intro u hu
  rcases List.suffix_cons_iff.mp hu with rfl | hu'
  · apply numRule_none_of_not_prefix
    match d, hne, hd with
    | d0 :: d', _, hd =>
      intro hp
      rw [show "&#x".data = ['&', '#', 'x'] from rfl] at hp
      simp only [List.cons_append, List.isPrefixOf, Bool.and_eq_true, beq_iff_eq] at hp
      have hdig := hd d0 (List.mem_cons_self _ _)
      rw [← hp.2.2.1] at hdig
      exact absurd hdig (by decide)
  · refine numRule_noop_in_tail ?_ hu'
    intro hmem
    rcases List.mem_cons.mp hmem with h1 | h2
    · exact absurd h1 (by decide)
    · rcases List.mem_append.mp h2 with h3 | h4
      · exact absurd (hd '&' h3) (by decide)
      · exact absurd h4 (by decide)

/-- The decimal pass does not touch a single character. -/
theorem decPass_singleton (c : Char) : decEntityPass [c] = [c] := by
  unfold decEntityPass
  have hrule : numRule "&#".data Char.isDigit 10 [c] = none := by
    apply numRule_none_of_not_prefix
    rw [show "&#".data = ['&', '#'] from rfl]
    simp [List.isPrefixOf]
  rw [rewriteScan_neg hrule]
  rfl

/-- The decimal pass does not touch a kept hex reference: after `&#` the
next character is `x`, which is not a decimal digit. -/
theorem decPass_noop_on_hex {h : List Char} (hh : ∀ c ∈ h, goIsHexDigit c) :
    decEntityPass ('&' :: '#' :: 'x' :: (h ++ [';'])) =
      '&' :: '#' :: 'x' :: (h ++ [';']) := by
  unfold decEntityPass
  apply rewriteScan_noop
  intro u hu
  rcases List.suffix_cons_iff.mp hu with rfl | hu'
  · rw [show "&#".data = ['&', '#'] from rfl]
    unfold numRule
    rw [if_pos (by simp [List.isPrefixOf])]
    simp only [List.length_cons, List.length_nil, List.drop_succ_cons, List.drop_zero]
    rw [show List.takeWhile Char.isDigit ('x' :: (h ++ [';'])) = [] from by
      rw [List.takeWhile_cons]
      simp]
    simp
  · refine numRule_noop_in_tail ?_ hu'
    intro hmem
    rcases List.mem_cons.mp hmem with h1 | h2
    · exact absurd h1 (by decide)
    · rcases List.mem_cons.mp h2 with h3 | h4
      · exact absurd h3 (by decide)
      · rcases List.mem_append.mp h4 with h5 | h6
        · have hx := hh '&' h5
          exact absurd hx (by decide)
        · exact absurd h6 (by decide)

/-- Both numeric passes on a well-formed decimal reference. -/
theorem numericPasses_dec {d : List Char} (hne : d ≠ []) (hd : ∀ c ∈ d, c.isDigit) :
    numericEntityPasses ('&' :: '#' :: (d ++ [';'])) =
      if 0 < digitsVal 10 d ∧ digitsVal 10 d < maxASCIICodePoint
      then [Char.ofNat (digitsVal 10 d)]
      else '&' :: '#' :: (d ++ [';']) := by
  unfold numericEntityPasses
  rw [hexPass_noop_on_dec hne hd, decPass_wellformed hne hd]

/-- Both numeric passes on a well-formed hex reference. -/
theorem numericPasses_hex {h : List Char} (hne : h ≠ []) (hh : ∀ c ∈ h, goIsHexDigit c) :
    numericEntityPasses ('&' :: '#' :: 'x' :: (h ++ [';'])) =
      if 0 < digitsVal 16 h ∧ digitsVal 16 h < maxASCIICodePoint
      then [Char.ofNat (digitsVal 16 h)]
      else '&' :: '#' :: 'x' :: (h ++ [';']) := by
  unfold numericEntityPasses
  rw [hexPass_wellformed hne hh]
  by_cases hv : 0 < digitsVal 16 h ∧ digitsVal 16 h < maxASCIICodePoint
  · rw [if_pos hv]
    exact decPass_singleton _
  · rw [if_neg hv]
    exact decPass_noop_on_hex hh

/-! ### The Confluence Sniffer (IsConfluenceMIME) -/

/-- `mimeHeaderScanLimit`: the sniffer examines at most this many lines. -/
def mimeHeaderScanLimit : Nat := 10

/-- Abstract state of one input file for the sniffer: whether `os.Open`
fails, the lines the `bufio.Scanner` delivers in order, and whether the
line stream is terminated by a read error (observed via `scanner.Err()`)
rather than by end of file. -/
structure MimeFile where
  openErr : Bool
  lines : List (List Char)
  scanErr : Bool

/-- The scanner loop of `IsConfluenceMIME`: the condition calls `Scan()`
first and checks `lineCount < mimeHeaderScanLimit` second, and the three
header flags accumulate over each examined line.  The fourth component
records whether the loop ended because the stream was exhausted — only
then can `scanner.Err()` observe a read error. -/
def headerScan : List (List Char) → Nat → Bool → Bool → Bool → (Bool × Bool × Bool × Bool)
  | [], _, d, m, c => (d, m, c, true)
  | l :: rest, n, d, m, c =>
    if n < mimeHeaderScanLimit then
      headerScan rest (n + 1) (d || "Date:".data.isPrefixOf l)
        (m || "MIME-Version:".data.isPrefixOf l)
        (c || containsSub "Exported From Confluence".data l)
    else (d, m, c, false)

/-- Model of `IsConfluenceMIME` (part_006:93-126).  `Except.error ()`
models the `(false, err)` outcomes (open failure, or a scan error reached
within the examined window); `Except.ok b` models `(b, nil)`. -/
def isConfluenceMIME (f : MimeFile) : Except Unit Bool :=
  if f.openErr then Except.error ()
  else
    match headerScan f.lines 0 false false false with
    | (d, m, c, hitEnd) =>
      if hitEnd && f.scanErr then Except.error ()
      else Except.ok (d && m && c)

theorem headerScan_cons_lt {l : List Char} {rest : List (List Char)} {n : Nat} {d m c : Bool}
    (hlt : n < mimeHeaderScanLimit) :
    headerScan (l :: rest) n d m c =
      headerScan rest (n + 1) (d || "Date:".data.isPrefixOf l)
        (m || "MIME-Version:".data.isPrefixOf l)
        (c || containsSub "Exported From Confluence".data l) := by
  conv_lhs => rw [headerScan]
  rw [if_pos hlt]

theorem headerScan_cons_ge {l : List Char} {rest : List (List Char)} {n : Nat} {d m c : Bool}
    (hge : ¬ n < mimeHeaderScanLimit) :
    headerScan (l :: rest) n d m c = (d, m, c, false) := by
  conv_lhs => rw [headerScan]
  rw [if_neg hge]

theorem headerScan_spec :
    ∀ (ls : List (List Char)) (n : Nat) (d m c : Bool), n ≤ 10 →
      headerScan ls n d m c =
        (d || (ls.take (10 - n)).any (fun l => "Date:".data.isPrefixOf l),
         m || (ls.take (10 - n)).any (fun l => "MIME-Version:".data.isPrefixOf l),
         c || (ls.take (10 - n)).any (fun l => containsSub "Exported From Confluence".data l),
         decide (ls.length ≤ 10 - n))
  | [], n, d, m, c, hn => by
    simp [headerScan]
  | l :: rest, n, d, m, c, hn => by
    by_cases hlt : n < 10
    · rw [headerScan_cons_lt hlt, headerScan_spec rest (n + 1) _ _ _ (by omega),
        show 10 - n = (10 - (n + 1)) + 1 by omega, List.take_succ_cons]
      simp only [List.any_cons, Bool.or_assoc, Prod.mk.injEq, List.length_cons]
      refine ⟨trivial, trivial, trivial, ?_⟩
      exact decide_eq_decide.mpr (by omega)
    · have hn10 : n = 10 := by omega
      subst hn10
      rw [headerScan_cons_ge (by decide), show 10 - 10 = 0 from rfl]
      simp

/-! ## The claims -/

/-- C1: for every input string, the output of the Balance Enforcer
(`balanceDetailsTags`) has at most as many `"</details>"` occurrences as
`"<details>"` occurrences; the open-marker count never decreases; and the
output length is at most the input length. -/
theorem claim_C1 (md : List Char) :
    goCount closeTag (balanceDetailsTags md) ≤ goCount openTag (balanceDetailsTags md) ∧
    goCount openTag md ≤ goCount openTag (balanceDetailsTags md) ∧
    (balanceDetailsTags md).length ≤ md.length :=
  balance_props md

/-- C2: the Balance Enforcer loop terminates on every input: an iteration
that fires deletes exactly one ten-character `"</details>"` occurrence,
strictly shortening the text (so the recursion is well-founded on the text
length), and fuel equal to the input length always computes the result. -/
theorem claim_C2 (md : List Char) :
    (∀ i, lastIndex? closeTag md = some i →
      (md.take i ++ md.drop (i + closeTag.length)).length + closeTag.length = md.length ∧
      (md.take i ++ md.drop (i + closeTag.length)).length < md.length) ∧
    balanceFuel md.length md = balanceDetailsTags md := by
  constructor
  · intro i hi
    have hb := lastIndex_bound (by decide) hi
    have hcl : closeTag.length = 10 := by decide
    simp only [List.length_append, List.length_take, List.length_drop]
    omega
  · exact balanceFuel_eq md.length md le_rfl

/-- C2 witness: at `"a</details>"` the last close marker sits at index 1
and its deletion shortens the text by exactly ten characters. -/
theorem claim_C2_witness :
    ("a</details>".data.take 1 ++ "a</details>".data.drop (1 + closeTag.length)).length +
        closeTag.length = "a</details>".data.length ∧
    ("a</details>".data.take 1 ++ "a</details>".data.drop (1 + closeTag.length)).length <
      "a</details>".data.length :=
  (claim_C2 "a</details>".data).1 1 (by decide)

/-- C3: the two concrete Balance Enforcer scenarios of the spec:
`"content</details>"` becomes `"content"` and
`"<details>Content</details></details></details>"` becomes
`"<details>Content</details>"`. -/
theorem claim_C3 :
    balanceDetailsTags "content</details>".data = "content".data ∧
    balanceDetailsTags "<details>Content</details></details></details>".data =
      "<details>Content</details>".data := by
  constructor
  · rw [balance_eval]
    decide
  · rw [balance_eval]
    decide

/-- C4 counterexample: the claim says excess `"</div>"` tags are removed
from the rightmost occurrence, but `strings.Replace(html, "</div>", "", 1)`
removes the leftmost one: on `"<div>a</div>b</div>"` the code yields
`"<div>ab</div>"`, not the rightmost-removal result `"<div>a</div>b"`. -/
theorem claim_C4_counterexample :
    divBalanceRepair "<div>a</div>b</div>".data = "<div>ab</div>".data ∧
    divBalanceRepairRightmost "<div>a</div>b</div>".data = "<div>a</div>b".data ∧
    divBalanceRepair "<div>a</div>b</div>".data ≠
      divBalanceRepairRightmost "<div>a</div>b</div>".data :=
  ⟨by decide, by decide, by decide⟩

/-- C4 (amended): the div-balance repair compares the `"<div"` and
`"</div>"` counts and, when closers exceed openers, removes excess closing
tags one at a time from the leftmost occurrence (with the closer count
decremented rather than recounted) until the counts agree — i.e. it
iterates the leftmost removal exactly `closers - openers` times. -/
theorem claim_C4 (html : List Char) :
    divBalanceRepair html =
      (removeFirst closeDivPat)^[goCount closeDivPat html - goCount openDivPat html] html :=
  divBalanceLoop_eq_iterate _ _ html

/-- C5 counterexample: the final steps of `postProcessMarkdown` can emit
two trailing newlines, because the Balance Enforcer runs after the
trim-and-append-newline step: on `"x\n</details>"` the orphaned close
marker sits directly before the final newline, and deleting it leaves
`"x\n\n"`. -/
theorem claim_C5_counterexample :
    postProcessTail "x\n</details>".data = "x\n\n".data ∧
    ¬ endsInExactlyOneNewline (postProcessTail "x\n</details>".data) := by
  have heval : postProcessTail "x\n</details>".data = "x\n\n".data := by
    unfold postProcessTail
    rw [balance_eval]
    decide
  refine ⟨heval, ?_⟩
  rw [heval]
  decide

/-- C5 (amended): the whitespace-normalization step itself ends in exactly
one trailing newline, and the final output of the post-processing tail
always ends in at least one trailing newline; the Balance Enforcer (and
the emoji substitutions after it) never remove it, but the Enforcer can
leave a second newline exposed (see the counterexample). -/
theorem claim_C5 (md : List Char) :
    endsInExactlyOneNewline (goTrimSpace (trimLineEnds (collapseNewlines md)) ++ ['\n']) ∧
    (postProcessTail md).getLast? = some '\n' := by
  refine ⟨goTrimSpace_concat_nl _, ?_⟩
  unfold postProcessTail
  refine applyPairsOrder_getLast textEmojiPairs (by decide) _ ?_
  exact balance_getLast_nl _ (List.getLast?_concat _)

/-- C6 counterexample: the twelve substitutions do not commute on every
input: on `"&amp;lt;"` the source-order table yields `"&lt;"` while the
order with `&amp;` first yields `"<"` (the `&amp;` → `&` substitution
creates a new `&lt;` occurrence). -/
theorem claim_C6_counterexample :
    entityPairsAmpFirst.Perm entityPairs ∧
    applyPairsOrder entityPairs "&amp;lt;".data = "&lt;".data ∧
    applyPairsOrder entityPairsAmpFirst "&amp;lt;".data = "<".data ∧
    applyPairsOrder entityPairs "&amp;lt;".data ≠
      applyPairsOrder entityPairsAmpFirst "&amp;lt;".data :=
  ⟨by decide, by decide, by decide, by decide⟩

/-- C6 (amended): on inputs containing neither `"&amp;"` nor `"&#38;"` as
substrings, applying the twelve substitutions in any two orders yields the
same text; the restriction is necessary because the two `&`-producing
substitutions can create new entity occurrences (see the
counterexample). -/
theorem claim_C6 {l₁ l₂ : List (List Char × List Char)}
    (h₁ : l₁.Perm entityPairs) (h₂ : l₂.Perm entityPairs)
    (s : List Char) (hs1 : ¬ "&amp;".data <:+: s) (hs2 : ¬ "&#38;".data <:+: s) :
    applyPairsOrder l₁ s = applyPairsOrder l₂ s :=
  applyPairsOrder_perm (h₁.trans h₂.symm) (fun pr hpr => h₁.subset hpr) s ⟨hs1, hs2⟩

/-- C6 witness: two concrete orders agree on `"&lt;x&#62;"`, which contains
neither `"&amp;"` nor `"&#38;"`. -/
theorem claim_C6_witness :
    applyPairsOrder entityPairs "&lt;x&#62;".data =
      applyPairsOrder entityPairsAmpFirst "&lt;x&#62;".data :=
  claim_C6 (List.Perm.refl _) (by decide) "&lt;x&#62;".data (by decide) (by decide)

/-- C7: the numeric passes decode a well-formed reference `&#NN;`
(decimal) or `&#xHH;` (hex digits of either case) to the referenced
character exactly when its value is strictly between 0 and 127 and keep it
verbatim otherwise; in particular `&#126;` decodes to `~` while `&#127;`,
`&#128;`, `&#200;` and `&#xC8;` pass through `decodeHTMLEntities`
unchanged. -/
theorem claim_C7 :
    (∀ d : List Char, d ≠ [] → (∀ c ∈ d, c.isDigit) →
      numericEntityPasses ('&' :: '#' :: (d ++ [';'])) =
        if 0 < digitsVal 10 d ∧ digitsVal 10 d < maxASCIICodePoint
        then [Char.ofNat (digitsVal 10 d)]
        else '&' :: '#' :: (d ++ [';'])) ∧
    (∀ h : List Char, h ≠ [] → (∀ c ∈ h, goIsHexDigit c) →
      numericEntityPasses ('&' :: '#' :: 'x' :: (h ++ [';'])) =
        if 0 < digitsVal 16 h ∧ digitsVal 16 h < maxASCIICodePoint
        then [Char.ofNat (digitsVal 16 h)]
        else '&' :: '#' :: 'x' :: (h ++ [';'])) ∧
    decodeHTMLEntities "&#126;".data = "~".data ∧
    decodeHTMLEntities "&#127;".data = "&#127;".data ∧
    decodeHTMLEntities "&#128;".data = "&#128;".data ∧
    decodeHTMLEntities "&#200;".data = "&#200;".data ∧
    decodeHTMLEntities "&#xC8;".data = "&#xC8;".data :=
  ⟨fun _ hne hd => numericPasses_dec hne hd,
   fun _ hne hh => numericPasses_hex hne hh,
   by decide, by decide, by decide, by decide, by decide⟩

/-- C7 witness: the decimal reference `&#126;` (digits `126`) decodes. -/
theorem claim_C7_witness :
    numericEntityPasses ('&' :: '#' :: (['1', '2', '6'] ++ [';'])) =
      if 0 < digitsVal 10 ['1', '2', '6'] ∧ digitsVal 10 ['1', '2', '6'] < maxASCIICodePoint
      then [Char.ofNat (digitsVal 10 ['1', '2', '6'])]
      else '&' :: '#' :: (['1', '2', '6'] ++ [';']) :=
  claim_C7.1 ['1', '2', '6'] (by decide) (by decide)

/-- C8: the no-op fast path of the Entity Decoder: any input containing
neither `"&lt;"` nor `"&#"` is returned unchanged, byte for byte, even if
it contains other mapped entities. -/
theorem claim_C8 (s : List Char)
    (h1 : containsSub "&lt;".data s = false) (h2 : containsSub "&#".data s = false) :
    decodeHTMLEntities s = s := by
  unfold decodeHTMLEntities
  rw [h1, h2]
  simp

/-- C8 witness: `"&gt;&nbsp;hello"` contains other mapped entities but
neither `"&lt;"` nor `"&#"`, and is returned unchanged. -/
theorem claim_C8_witness :
    decodeHTMLEntities "&gt;&nbsp;hello".data = "&gt;&nbsp;hello".data :=
  claim_C8 _ (by decide) (by decide)

/-- C9: the Confluence Sniffer returns `true` exactly when, in an
error-free run, the first ten lines contain a line starting with `Date:`,
a line starting with `MIME-Version:` and a line containing
`Exported From Confluence`; an open failure, or a read error reached
within the scanned window, yields the distinct error outcome instead of a
plain `false`. -/
theorem claim_C9 (f : MimeFile) :
    (isConfluenceMIME f = Except.ok true ↔
      f.openErr = false ∧ ¬ (f.scanErr = true ∧ f.lines.length ≤ mimeHeaderScanLimit) ∧
      (f.lines.take mimeHeaderScanLimit).any (fun l => "Date:".data.isPrefixOf l) = true ∧
      (f.lines.take mimeHeaderScanLimit).any
        (fun l => "MIME-Version:".data.isPrefixOf l) = true ∧
      (f.lines.take mimeHeaderScanLimit).any
        (fun l => containsSub "Exported From Confluence".data l) = true) ∧
    ((f.openErr = true ∨ (f.scanErr = true ∧ f.lines.length ≤ mimeHeaderScanLimit)) →
      isConfluenceMIME f = Except.error ()) := by
  rcases f with ⟨oe, ls, se⟩
  unfold isConfluenceMIME
  rw [headerScan_spec ls 0 false false false (by omega)]
  simp only [Bool.false_or, Nat.sub_zero, mimeHeaderScanLimit]
  cases oe
  · cases se
    · simp [Bool.and_eq_true, and_assoc]
    · by_cases hlen : ls.length ≤ 10
      · simp [hlen]
      · simp [hlen, Bool.and_eq_true, and_assoc]
  · simp

/-- C9 witness: an unreadable file is classified as an error, not as a
negative sniff. -/
theorem claim_C9_witness :
    isConfluenceMIME ⟨true, [], false⟩ = Except.error () :=
  (claim_C9 ⟨true, [], false⟩).2 (Or.inl rfl)

/-- C10: the Balance Enforcer is idempotent: its output already satisfies
the close-count ≤ open-count stopping condition, on which the enforcer is
the identity. -/
theorem claim_C10 (md : List Char) :
    balanceDetailsTags (balanceDetailsTags md) = balanceDetailsTags md :=
  balance_stop (balance_props md).1

end C2MD
